import Mathlib

/-!
# A shallow embedding of `gocoderio/easyfs` (mapfs.go, easyfs.go)

Go strings are modelled as `List Char`.  Go guarantees that byte-wise
lexicographic comparison of UTF-8 strings coincides with code-point-wise
comparison, so `List Char` with the code-point order is a faithful model of
Go's `<` on strings.

The backing store `MapFS` (`map[string]*MapFile` in Go) is modelled as an
association list from path strings to *pointer values*: a map value is a
`*MapFile`, i.e. either `nil` or a reference into a heap of `MapFile`
records.  The heap (`heap : Nat → MapFile`) makes pointer aliasing
observable: `Copy` stores the same reference under two keys, so a `Write`
through a handle for one path mutates the record seen through the other
path.  Reading a missing key of a Go map yields the zero value (`nil`),
which is what `goGet` returns (`Option.join` of the association-list
lookup).

`fs.FileMode` is a `uint32`; `fs.ModeDir = 1 <<< 31`.  `ModTime`
(`time.Time`) is modelled as an opaque `Nat`, supplied as a `now` argument
to the mutators that call `time.Now()`.  The `Sys any` field is never read
by the code and is omitted.

Functions that index `name[0]` on a possibly-empty string (Go panics on an
out-of-range index) return `Option`, with `none` for the panic.
-/

abbrev Str := List Char

def strOf (s : String) : Str := s.data

/-- The root path name used by `io/fs`: `"."`. -/
def rootStr : Str := strOf "."

/-- `MapFile` from mapfs.go (the unread `Sys any` field is omitted). -/
structure MapFile where
  Data : List Nat
  Mode : Nat
  ModTime : Nat
deriving DecidableEq

/-- `fs.ModeDir = 1 <<< 31` from Go's `io/fs`. -/
def ModeDir : Nat := 2 ^ 31

/-- The record `&MapFile\x7bMode: fs.ModeDir\x7d` synthesized by `Open` for
implicit directories. -/
def dirPlaceholder : MapFile := ⟨[], ModeDir, 0⟩

/-- Error kinds that the code attaches to `fs.PathError`:
`fs.ErrNotExist` and `fs.ErrInvalid`. -/
inductive ErrKind where
  | notExist
  | invalid
deriving DecidableEq

/-- `fs.PathError`: operation name, path, wrapped error. -/
structure PathErr where
  op : Str
  path : Str
  err : ErrKind
deriving DecidableEq

/-- Errors returned by `OpenMapFile.Read`: `io.EOF` or a `*fs.PathError`. -/
inductive ReadErr where
  | eof
  | pathErr (e : PathErr)
deriving DecidableEq

/-- A Go `*MapFile` value as it occurs in handles and directory entries:
`nil`, a pointer into the store's heap, or a freshly allocated record that
is not reachable from the store (the synthesized directory placeholders). -/
inductive GoPtr where
  | nil
  | stored (r : Nat)
  | synth (f : MapFile)
deriving DecidableEq

/-- `mapFileInfo` from mapfs.go: an entry name plus the `*MapFile` it
describes. -/
structure MapFileInfo where
  name : Str
  f : GoPtr
deriving DecidableEq

/-- `MapFS`: the Go map, modelled as an association list (keys are unique
in any state reachable through the API; theorems that need uniqueness take
it as a hypothesis), together with the heap of `MapFile` records the
pointer values refer to. -/
structure MapFS where
  entries : List (Str × Option Nat)
  heap : Nat → MapFile
  nextRef : Nat

def emptyMapFS : MapFS := ⟨[], fun _ => ⟨[], 0, 0⟩, 0⟩

/-- Association-list lookup: the first binding of a key, if any. -/
def findEnt : List (Str × Option Nat) → Str → Option (Option Nat)
  | [], _ => none
  | (k, v) :: rest, name => if k = name then some v else findEnt rest name

/-- Reading a Go map: a missing key yields the zero value `nil`, which is
indistinguishable from a stored `nil` pointer. -/
def goGet (es : List (Str × Option Nat)) (name : Str) : Option Nat :=
  (findEnt es name).join

/-- Go map assignment `m[k] = v`: replace any binding of `k`. -/
def setKey (es : List (Str × Option Nat)) (k : Str) (v : Option Nat) :
    List (Str × Option Nat) :=
  es.filter (fun e => decide (e.1 ≠ k)) ++ [(k, v)]

/-- Go `delete(m, k)`. -/
def delKey (es : List (Str × Option Nat)) (k : Str) : List (Str × Option Nat) :=
  es.filter (fun e => decide (e.1 ≠ k))

/-- Index of the first `'/'`, `strings.Index(s, "/")` (`none` for `-1`). -/
def idxSlash : Str → Option Nat
  | [] => none
  | c :: rest => if c = '/' then some 0 else (idxSlash rest).map (· + 1)

/-- `strings.HasPrefix(s, pre)`. -/
def goStartsWith : Str → Str → Bool
  | _, [] => true
  | [], _ :: _ => false
  | c :: s, d :: pre => c = d && goStartsWith s pre

/-- The segments of a path split on `'/'` (an empty string has the single
segment `""`). -/
def segments : Str → List Str
  | [] => [[]]
  | c :: rest =>
    if c = '/' then [] :: segments rest
    else
      match segments rest with
      | s :: ss => (c :: s) :: ss
      | [] => [[c]]

/-- `fs.ValidPath` from Go's `io/fs`: `"."`, or non-empty `'/'`-separated
segments none of which is `""`, `"."` or `".."`.  (The `utf8.ValidString`
test is vacuous in this model: `List Char` always denotes valid UTF-8.) -/
def validPath (s : Str) : Bool :=
  s == rootStr ||
    (segments s).all (fun e => !(e == [] || e == rootStr || e == strOf ".."))

/-- `name[strings.LastIndex(name, "/")+1:]`, also `path.Base` on the valid
names that reach it in `Open`. -/
def lastSeg (s : Str) : Str :=
  (s.reverse.takeWhile (fun c => c != '/')).reverse

/-- The first segment of a relative path: everything before the first
`'/'`, or the whole string if there is none. -/
def firstSeg (s : Str) : Str :=
  match idxSlash s with
  | some i => s.take i
  | none => s

/-- Go string `<`: byte-wise lexicographic comparison (equivalently
code-point-wise, see the header comment). -/
def lexLt : Str → Str → Bool
  | _, [] => false
  | [], _ :: _ => true
  | a :: as, b :: bs => if a < b then true else if b < a then false else lexLt as bs

/-- Insert into a list sorted ascending by name. -/
def insertEntry (e : MapFileInfo) : List MapFileInfo → List MapFileInfo
  | [] => [e]
  | x :: xs => if lexLt x.name e.name then x :: insertEntry e xs else e :: x :: xs

/-- The `sort.Slice(list, func(i, j) \x7b return list[i].name < list[j].name \x7d)`
call in `Open`: sort ascending by name.  (Go's sort is unstable, but the
entry names produced by one scan are pairwise distinct, so the ascending
permutation — and hence this model — is uniquely determined.) -/
def sortEntries : List MapFileInfo → List MapFileInfo
  | [] => []
  | x :: xs => insertEntry x (sortEntries xs)

/-- One step of the root scan in `Open` (`name == "."`): a key without a
separator that is not `"."` is a direct child. -/
def rootEntry (e : Str × Option Nat) : Option MapFileInfo :=
  match idxSlash e.1 with
  | none =>
    if e.1 ≠ rootStr then
      some ⟨e.1, match e.2 with | some r => .stored r | none => .nil⟩
    else none
  | some _ => none

/-- One step of the root scan: a key with a separator contributes
`fname[:i]` to the `need` set. -/
def rootNeed (e : Str × Option Nat) : Option Str :=
  (idxSlash e.1).map (fun i => e.1.take i)

/-- One step of the non-root scan (`prefix = name + "/"`): a key with the
prefix and no further separator is a direct child named by the remainder. -/
def childEntry (pre : Str) (e : Str × Option Nat) : Option MapFileInfo :=
  if goStartsWith e.1 pre then
    match idxSlash (e.1.drop pre.length) with
    | none =>
      some ⟨e.1.drop pre.length, match e.2 with | some r => .stored r | none => .nil⟩
    | some _ => none
  else none

/-- One step of the non-root scan: a key with the prefix and a further
separator at relative index `i` contributes
`fname[len(prefix):len(prefix)+i]` to the `need` set. -/
def childNeed (pre : Str) (e : Str × Option Nat) : Option Str :=
  if goStartsWith e.1 pre then
    match idxSlash (e.1.drop pre.length) with
    | none => none
    | some i => some ((e.1.drop pre.length).take i)
  else none

/-- The scan over the whole store in `Open`'s directory branch: the list of
direct children, and the `need` set of first segments of deeper keys (a Go
`map[string]bool`, i.e. duplicate-free). -/
def dirListing (fsys : MapFS) (name : Str) : List MapFileInfo × List Str :=
  if name = rootStr then
    (fsys.entries.filterMap rootEntry, (fsys.entries.filterMap rootNeed).dedup)
  else
    (fsys.entries.filterMap (childEntry (name ++ ['/'])),
     (fsys.entries.filterMap (childNeed (name ++ ['/']))).dedup)

/-- Lines 104-109 of mapfs.go: drop from `need` every name already present
as a direct child, then append the remaining names as synthesized
directory placeholders. -/
def fullListing (fsys : MapFS) (name : Str) : List MapFileInfo :=
  (dirListing fsys name).1 ++
    ((dirListing fsys name).2.filter
      (fun n => decide (n ∉ (dirListing fsys name).1.map MapFileInfo.name))).map
      (fun n => ⟨n, .synth dirPlaceholder⟩)

/-- `elem` in `Open`'s directory branch: `"."` for the root, else the last
segment of the name. -/
def dirElem (name : Str) : Str :=
  if name = rootStr then rootStr else lastSeg name

/-- The directory's own record: the explicit one if present, else a fresh
`&MapFile\x7bMode: fs.ModeDir\x7d`. -/
def dirSelf (file? : Option Nat) : GoPtr :=
  match file? with
  | some r => .stored r
  | none => .synth dirPlaceholder

/-- `OpenMapFile`: a regular-file handle. Its `mapFileInfo.f` always comes
from the map, so it is a heap reference (`ref`). -/
structure OpenMapFile where
  path : Str
  name : Str
  ref : Nat
  offset : Int
deriving DecidableEq

/-- The result of `Open`: a regular-file handle or a `mapDir` (path, own
info, sorted entry list, enumeration offset). -/
inductive Handle where
  | file (f : OpenMapFile)
  | dir (path : Str) (info : MapFileInfo) (entry : List MapFileInfo) (offset : Nat)
deriving DecidableEq

/-- The `*MapFile` a handle holds as its own record. -/
def Handle.recRef : Handle → GoPtr
  | .file f => .stored f.ref
  | .dir _ info _ _ => info.f

/-- The directory branch of `Open` (lines 64-117 of mapfs.go): scan,
not-found test for non-root names, dedup, sort. -/
def openDir (fsys : MapFS) (name : Str) (file? : Option Nat) :
    Except PathErr Handle :=
  if name ≠ rootStr ∧ file? = none ∧ (dirListing fsys name).1 = [] ∧
      (dirListing fsys name).2 = [] then
    .error ⟨strOf "open", name, .notExist⟩
  else
    .ok (.dir name ⟨dirElem name, dirSelf file?⟩ (sortEntries (fullListing fsys name)) 0)

/-- `MapFS.Open` (mapfs.go lines 54-118).  An invalid name fails with
`fs.ErrNotExist`; an explicit non-directory record wins; everything else is
the directory branch. -/
def MapFS.Open (fsys : MapFS) (name : Str) : Except PathErr Handle :=
  if validPath name then
    match goGet fsys.entries name with
    | some r =>
      if (fsys.heap r).Mode &&& ModeDir = 0 then
        .ok (.file ⟨name, lastSeg name, r, 0⟩)
      else openDir fsys name (some r)
    | none => openDir fsys name none
  else .error ⟨strOf "open", name, .notExist⟩

/-- Go's `copy(dst, src)` on byte slices: overwrite the first
`min |dst| |src|` bytes of `dst` in place. -/
def goCopyInto (dst src : List Nat) : List Nat :=
  src.take (min dst.length src.length) ++ dst.drop (min dst.length src.length)

/-- The content update of `OpenMapFile.Write` (mapfs.go lines 203-225):
`n := copy(f.f.Data, b); if n < len(b) \x7b f.f.Data = append(f.f.Data, b[n:]...) \x7d`. -/
def writeData (data b : List Nat) : List Nat :=
  let n := min data.length b.length
  let data1 := goCopyInto data b
  if n < b.length then data1 ++ b.drop n else data1

/-- `OpenMapFile.Write`: mutates the record `f.f` points to (visible
through every path and handle that references it), always returns
`(len(b), nil)`, and neither reads nor moves the handle's offset (the
receiver is a value, so even a cursor update could not reach the caller). -/
def OpenMapFile.Write (fsys : MapFS) (f : OpenMapFile) (b : List Nat) :
    MapFS × Nat × Option PathErr :=
  ({fsys with
      heap := fun r =>
        if r = f.ref then
          {fsys.heap f.ref with Data := writeData (fsys.heap f.ref).Data b}
        else fsys.heap r},
   b.length, none)

/-- What one `Read` call returns: the bytes copied into the caller's
buffer, the count, and `io.EOF`/`*fs.PathError` if any. -/
structure ReadOut where
  bytes : List Nat
  n : Nat
  err : Option ReadErr
deriving DecidableEq

/-- The byte count of one `Read` call:
`n := copy(b, f.f.Data[f.offset:])`, i.e. `min` of the buffer length and
the remaining content length. -/
def readCount (fsys : MapFS) (f : OpenMapFile) (blen : Nat) : Nat :=
  min blen ((fsys.heap f.ref).Data.length - f.offset.toNat)

/-- `OpenMapFile.Read` (mapfs.go lines 180-191) with a caller buffer of
length `blen`. -/
def OpenMapFile.Read (fsys : MapFS) (f : OpenMapFile) (blen : Nat) :
    ReadOut × OpenMapFile :=
  if f.offset ≥ (((fsys.heap f.ref).Data.length : Nat) : Int) then
    (⟨[], 0, some .eof⟩, f)
  else if f.offset < 0 then
    (⟨[], 0, some (.pathErr ⟨strOf "read", f.path, .invalid⟩)⟩, f)
  else
    (⟨((fsys.heap f.ref).Data.drop f.offset.toNat).take (readCount fsys f blen),
       readCount fsys f blen, none⟩,
     {f with offset := f.offset + (readCount fsys f blen : Nat)})

/-- The absolute target of a `Seek`: the `switch whence` of mapfs.go lines
233-240 (an unknown `whence` leaves the requested offset unchanged — the
Go `switch` has no default case). -/
def seekTarget (f : OpenMapFile) (dlen : Int) (offset : Int) (whence : Nat) : Int :=
  if whence = 0 then offset
  else if whence = 1 then offset + f.offset
  else if whence = 2 then offset + dlen
  else offset

/-- `OpenMapFile.Seek` (mapfs.go lines 232-246). -/
def OpenMapFile.Seek (fsys : MapFS) (f : OpenMapFile) (offset : Int) (whence : Nat) :
    Except PathErr (Int × OpenMapFile) :=
  if seekTarget f ((fsys.heap f.ref).Data.length : Int) offset whence < 0 ∨
      seekTarget f ((fsys.heap f.ref).Data.length : Int) offset whence >
        ((fsys.heap f.ref).Data.length : Int) then
    .error ⟨strOf "seek", f.path, .invalid⟩
  else
    .ok (seekTarget f ((fsys.heap f.ref).Data.length : Int) offset whence,
      {f with offset := seekTarget f ((fsys.heap f.ref).Data.length : Int) offset whence})

/-- `MapFS.ReadFile` = `fs.ReadFile` over `Open`: open, then drain `Read`
from offset 0 (which yields exactly the record's `Data`); a directory
handle's `Read` always fails with `fs.ErrInvalid`. -/
def MapFS.ReadFile (fsys : MapFS) (name : Str) : Except PathErr (List Nat) :=
  match fsys.Open name with
  | .error e => .error e
  | .ok (.file f) => .ok (fsys.heap f.ref).Data
  | .ok (.dir p _ _ _) => .error ⟨strOf "read", p, .invalid⟩

/-- The `if name[0] == '/' \x7b name = name[1:] \x7d` normalization shared by the
mutators.  `name[0]` on the empty string is an out-of-range index: Go
panics, modelled as `none`. -/
def stripSlash (name : Str) : Option Str :=
  match name with
  | [] => none
  | c :: rest => some (if c = '/' then rest else c :: rest)

/-- `MapFS.Create` (mapfs.go lines 304-322): store a fresh empty record
with mode `0666` and the current time, return a handle on it (its
`mapFileInfo.name` is the full stored name, not the base name). -/
def MapFS.Create (fsys : MapFS) (now : Nat) (name : Str) :
    Option (MapFS × OpenMapFile) :=
  match stripSlash name with
  | none => none
  | some n =>
    let r := fsys.nextRef
    some ({entries := setKey fsys.entries n (some r),
           heap := fun x => if x = r then ⟨[], 438, now⟩ else fsys.heap x,
           nextRef := r + 1},
          ⟨n, n, r, 0⟩)

/-- `MapFS.WriteFile` (mapfs.go lines 325-336): replace the whole record. -/
def MapFS.WriteFile (fsys : MapFS) (now : Nat) (name : Str) (data : List Nat)
    (perm : Nat) : Option MapFS :=
  match stripSlash name with
  | none => none
  | some n =>
    let r := fsys.nextRef
    some {entries := setKey fsys.entries n (some r),
          heap := fun x => if x = r then ⟨data, perm, now⟩ else fsys.heap x,
          nextRef := r + 1}

/-- `MapFS.Remove` (mapfs.go lines 340-346). -/
def MapFS.Remove (fsys : MapFS) (name : Str) : Option MapFS :=
  (stripSlash name).map (fun n => {fsys with entries := delKey fsys.entries n})

/-- `MapFS.Rename` (mapfs.go lines 352-362):
`fsys[newname] = fsys[oldname]; delete(fsys, oldname)` — note that a
missing `oldname` stores a `nil` pointer under `newname`. -/
def MapFS.Rename (fsys : MapFS) (oldname newname : Str) : Option MapFS :=
  match stripSlash oldname with
  | none => none
  | some o =>
    match stripSlash newname with
    | none => none
    | some n =>
      some {fsys with entries := delKey (setKey fsys.entries n (goGet fsys.entries o)) o}

/-- `MapFS.Copy` (mapfs.go lines 365-372): `NotFound` when `fsys[src]` is
`nil`, otherwise store the *same* pointer under `dst`. -/
def MapFS.Copy (fsys : MapFS) (dst src : Str) : Except PathErr MapFS :=
  match goGet fsys.entries src with
  | none => .error ⟨strOf "copy", src, .notExist⟩
  | some r => .ok {fsys with entries := setKey fsys.entries dst (some r)}

/-- The `EasyFS` wrapper state (easyfs.go): its embedded `MapFS` map can be
`nil` (the zero value of the global `EFS`), modelled as `none`. -/
structure EasyFSVal where
  mapfs : Option MapFS

/-- `NewFS()`: a fresh filesystem with an allocated empty map. -/
def NewFS : EasyFSVal := ⟨some emptyMapFS⟩

/-- The two dynamic types that reach the interface comparison in
`checkGlobalVar`. -/
inductive GoIfaceVal where
  | strVal (s : Str)
  | efsVal (e : EasyFSVal)

/-- Go `!=` on an interface value and a typed value: values of different
dynamic types are never equal.  (Two `EasyFS` values never reach this
comparison in the code; Go would panic there, `EasyFS` not being a
comparable type, so that dead case is left as `true`.) -/
def ifaceNe (a : GoIfaceVal) (b : GoIfaceVal) : Bool :=
  match a, b with
  | .strVal x, .strVal y => x != y
  | .efsVal _, .efsVal _ => true
  | .strVal _, .efsVal _ => true
  | .efsVal _, .strVal _ => true

/-- `checkGlobalVar` (easyfs.go lines 27-31): compare the interface value
holding `EFS` (dynamic type `EasyFS`) against `zeroVal : string` (`""`). -/
def checkGlobalVar (g : EasyFSVal) : Bool :=
  ifaceNe (.efsVal g) (.strVal (strOf ""))

/-- `GetFS` (easyfs.go lines 20-26), as a function of the current global
`EFS`: return the global when `checkGlobalVar` holds, else a fresh map. -/
def GetFS (g : EasyFSVal) : EasyFSVal :=
  if checkGlobalVar g then g else ⟨some emptyMapFS⟩

/-- `EasyFS.WriteFile` (easyfs.go lines 43-53): the same leading-slash
normalization (so `name[0]` panics on `""`), then store a record holding
only `Data` (mode and time are zero; `perm` is unused).  Assigning into a
`nil` map also panics. -/
def EasyFSVal.WriteFile (g : EasyFSVal) (name : Str) (data : List Nat)
    (perm : Nat) : Option EasyFSVal :=
  match stripSlash name with
  | none => none
  | some n =>
    match g.mapfs with
    | none => none
    | some fsys =>
      let r := fsys.nextRef
      some ⟨some {entries := setKey fsys.entries n (some r),
                  heap := fun x => if x = r then ⟨data, 0, 0⟩ else fsys.heap x,
                  nextRef := r + 1}⟩

/-! ## Lemmas about the string order -/

theorem lexLt_nil_right (s : Str) : lexLt s [] = false := by
  cases s <;> rfl

theorem lexLt_cons (a b : Char) (as bs : Str) :
    lexLt (a :: as) (b :: bs) =
      (if a < b then true else if b < a then false else lexLt as bs) := rfl

theorem lexLt_irrefl (s : Str) : lexLt s s = false := by
  induction s with
  | nil => rfl
  | cons c cs ih =>
    rw [lexLt_cons, if_neg (lt_irrefl c), if_neg (lt_irrefl c)]
    exact ih

theorem lexLt_asymm : ∀ a b : Str, lexLt a b = true → lexLt b a = false
  | a, [], h => by rw [lexLt_nil_right] at h; cases h
  | [], _ :: _, _ => lexLt_nil_right _
  | a :: as, b :: bs, h => by
    rw [lexLt_cons] at h
    rw [lexLt_cons]
    rcases lt_trichotomy a b with hab | hab | hab
    · rw [if_neg (asymm hab), if_pos hab]
    · subst hab
      rw [if_neg (lt_irrefl a), if_neg (lt_irrefl a)] at h ⊢
      exact lexLt_asymm as bs h
    · rw [if_neg (asymm hab), if_pos hab] at h; cases h

theorem lexLt_trans : ∀ a b c : Str, lexLt a b = true → lexLt b c = true →
    lexLt a c = true
  | _, _, [], _, h2 => by rw [lexLt_nil_right] at h2; cases h2
  | _, [], _ :: _, h1, _ => by rw [lexLt_nil_right] at h1; cases h1
  | [], _ :: _, _ :: _, _, _ => rfl
  | a :: as, b :: bs, c :: cs, h1, h2 => by
    rw [lexLt_cons] at h1 h2 ⊢
    rcases lt_trichotomy a b with hab | hab | hab
    · rcases lt_trichotomy b c with hbc | hbc | hbc
      · rw [if_pos (lt_trans hab hbc)]
      · subst hbc; rw [if_pos hab]
      · rw [if_neg (asymm hbc), if_pos hbc] at h2; cases h2
    · subst hab
      rcases lt_trichotomy a c with hac | hac | hac
      · rw [if_pos hac]
      · subst hac
        rw [if_neg (lt_irrefl a), if_neg (lt_irrefl a)] at h1 h2 ⊢
        exact lexLt_trans as bs cs h1 h2
      · rw [if_neg (asymm hac), if_pos hac] at h2; cases h2
    · rw [if_neg (asymm hab), if_pos hab] at h1; cases h1

theorem lexLt_connex : ∀ a b : Str, a ≠ b →
    lexLt a b = true ∨ lexLt b a = true
  | [], [], h => absurd rfl h
  | [], _ :: _, _ => Or.inl rfl
  | _ :: _, [], _ => Or.inr rfl
  | a :: as, b :: bs, h => by
    rcases lt_trichotomy a b with hab | hab | hab
    · left; rw [lexLt_cons, if_pos hab]
    · subst hab
      have hne : as ≠ bs := fun he => h (by rw [he])
      rcases lexLt_connex as bs hne with h' | h'
      · left; rw [lexLt_cons, if_neg (lt_irrefl a), if_neg (lt_irrefl a)]; exact h'
      · right; rw [lexLt_cons, if_neg (lt_irrefl a), if_neg (lt_irrefl a)]; exact h'
    · right; rw [lexLt_cons, if_pos hab]

/-- Transitivity of the complement order `¬(· < ·)` used by the sort. -/
theorem lexLt_false_trans {a b c : Str} (h1 : lexLt b a = false)
    (h2 : lexLt c b = false) : lexLt c a = false := by
  cases hh : lexLt c a with
  | false => rfl
  | true =>
    exfalso
    by_cases hab : a = b
    · subst hab; rw [hh] at h2; cases h2
    · rcases lexLt_connex a b hab with h' | h'
      · have h'' := lexLt_trans c a b hh h'
        rw [h''] at h2; cases h2
      · rw [h'] at h1; cases h1

/-! ## Lemmas about prefixes and path validity -/

theorem goStartsWith_append (pre t : Str) : goStartsWith (pre ++ t) pre = true := by
  induction pre with
  | nil => cases t <;> rfl
  | cons c cs ih => simp [goStartsWith, ih]

theorem goStartsWith_eq : ∀ s pre : Str, goStartsWith s pre = true →
    pre ++ s.drop pre.length = s
  | s, [], _ => by simp
  | [], _ :: _, h => by cases h
  | c :: s, d :: pre, h => by
    simp only [goStartsWith, Bool.and_eq_true, decide_eq_true_eq] at h
    simp only [List.length_cons, List.drop_succ_cons, List.cons_append, h.1]
    rw [goStartsWith_eq s pre h.2]

theorem validPath_nil : validPath [] = false := by decide

theorem validPath_cons_slash (s : Str) : validPath ('/' :: s) = false := by
  simp [validPath, segments, rootStr, strOf]

theorem stripSlash_of_valid {s : Str} (h : validPath s = true) :
    stripSlash s = some s := by
  cases s with
  | nil => rw [validPath_nil] at h; cases h
  | cons c rest =>
    by_cases hc : c = '/'
    · subst hc; rw [validPath_cons_slash] at h; cases h
    · simp [stripSlash, hc]
/-! ## Lemmas about the entry sort -/

/-- The non-strict order the insertion sort maintains: `a` at or before `b`
means `b`'s name is not smaller. -/
def entLe (a b : MapFileInfo) : Prop := lexLt b.name a.name = false

theorem insertEntry_perm (e : MapFileInfo) (l : List MapFileInfo) :
    List.Perm (insertEntry e l) (e :: l) := by
  induction l with
  | nil => exact List.Perm.refl _
  | cons x xs ih =>
    by_cases hlt : lexLt x.name e.name
    · simp only [insertEntry, hlt, if_true]
      exact (ih.cons x).trans (List.Perm.swap e x xs)
    · simp only [insertEntry, hlt, if_false]
      exact List.Perm.refl _

theorem sortEntries_perm (l : List MapFileInfo) :
    List.Perm (sortEntries l) l := by
  induction l with
  | nil => rfl
  | cons x xs ih =>
    exact (insertEntry_perm x (sortEntries xs)).trans (ih.cons x)


theorem pairwise_insertEntry (e : MapFileInfo) (l : List MapFileInfo)
    (h : l.Pairwise entLe) : (insertEntry e l).Pairwise entLe := by
  induction l with
  | nil => simp [insertEntry]
  | cons x xs ih =>
    rcases List.pairwise_cons.mp h with ⟨hx, hxs⟩
    by_cases hlt : lexLt x.name e.name
    · simp only [insertEntry, hlt, if_true]
      refine List.pairwise_cons.mpr ⟨?_, ih hxs⟩
      intro y hy
      rcases List.mem_cons.mp ((insertEntry_perm e xs).mem_iff.mp hy) with rfl | hy'
      · exact lexLt_asymm _ _ hlt
      · exact hx y hy'
    · simp only [insertEntry, hlt, if_false]
      refine List.pairwise_cons.mpr ⟨?_, h⟩
      intro y hy
      have hxe : lexLt x.name e.name = false := by
        cases hh : lexLt x.name e.name with
        | false => rfl
        | true => exact absurd hh hlt
      rcases List.mem_cons.mp hy with rfl | hy'
      · exact hxe
      · exact lexLt_false_trans hxe (hx y hy')

theorem pairwise_sortEntries (l : List MapFileInfo) :
    (sortEntries l).Pairwise entLe := by
  induction l with
  | nil => exact List.Pairwise.nil
  | cons x xs ih => exact pairwise_insertEntry x (sortEntries xs) ih

/-- On a list with pairwise-distinct names, the non-strict sorted order is
strict: byte-wise ascending. -/
theorem pairwise_lt_of_le_nodup (l : List MapFileInfo)
    (h : l.Pairwise entLe) (hn : (l.map MapFileInfo.name).Nodup) :
    l.Pairwise (fun a b => lexLt a.name b.name = true) := by
  have hne : l.Pairwise (fun a b => a.name ≠ b.name) :=
    (List.pairwise_map.mp hn)
  have hand := h.and hne
  refine hand.imp (fun hab => ?_)
  rcases lexLt_connex _ _ hab.2 with h' | h'
  · exact h'
  · rw [hab.1] at h'; cases h'

/-! ## Lemmas about the store -/

theorem findEnt_delKey_self (es : List (Str × Option Nat)) (k : Str) :
    findEnt (delKey es k) k = none := by
  induction es with
  | nil => rfl
  | cons e rest ih =>
    by_cases he : e.1 = k
    · simpa [delKey, he] using ih
    · simpa [delKey, he, findEnt] using ih

theorem findEnt_delKey_ne (es : List (Str × Option Nat)) (k k' : Str)
    (h : k' ≠ k) : findEnt (delKey es k) k' = findEnt es k' := by
  induction es with
  | nil => rfl
  | cons e rest ih =>
    by_cases he : e.1 = k
    · simpa [delKey, findEnt, List.filter_cons, he, Ne.symm h] using ih
    · by_cases he' : e.1 = k'
      · simp [delKey, findEnt, List.filter_cons, he, he', h]
      · simpa [delKey, findEnt, List.filter_cons, he, he'] using ih

theorem findEnt_append (es es' : List (Str × Option Nat)) (k : Str) :
    findEnt (es ++ es') k =
      match findEnt es k with
      | some v => some v
      | none => findEnt es' k := by
  induction es with
  | nil => rfl
  | cons e rest ih =>
    by_cases he : e.1 = k <;> simp [findEnt, he, ih]

theorem findEnt_setKey_self (es : List (Str × Option Nat)) (k : Str)
    (v : Option Nat) : findEnt (setKey es k v) k = some v := by
  show findEnt (delKey es k ++ [(k, v)]) k = some v
  rw [findEnt_append, findEnt_delKey_self]
  simp [findEnt]

theorem findEnt_setKey_ne (es : List (Str × Option Nat)) (k k' : Str)
    (v : Option Nat) (h : k' ≠ k) :
    findEnt (setKey es k v) k' = findEnt es k' := by
  show findEnt (delKey es k ++ [(k, v)]) k' = findEnt es k'
  rw [findEnt_append, findEnt_delKey_ne es k k' h]
  cases hf : findEnt es k' <;> simp [findEnt, Ne.symm h]

theorem goGet_setKey_self (es : List (Str × Option Nat)) (k : Str)
    (v : Option Nat) : goGet (setKey es k v) k = v := by
  simp [goGet, findEnt_setKey_self]

theorem goGet_setKey_ne (es : List (Str × Option Nat)) (k k' : Str)
    (v : Option Nat) (h : k' ≠ k) :
    goGet (setKey es k v) k' = goGet es k' := by
  simp [goGet, findEnt_setKey_ne es k k' v h]

theorem goGet_delKey_self (es : List (Str × Option Nat)) (k : Str) :
    goGet (delKey es k) k = none := by
  simp [goGet, findEnt_delKey_self]

theorem goGet_delKey_ne (es : List (Str × Option Nat)) (k k' : Str)
    (h : k' ≠ k) : goGet (delKey es k) k' = goGet es k' := by
  simp [goGet, findEnt_delKey_ne es k k' h]

/-- Keys after `delete(m[b] = m[a]; delete(m, a))`: the new key `b`, or an
old key other than `a`. -/
theorem mem_keys_rename {es : List (Str × Option Nat)} {a b k : Str}
    {v : Option Nat} (h : k ∈ (delKey (setKey es b v) a).map Prod.fst) :
    (k = b ∨ k ∈ es.map Prod.fst) ∧ k ≠ a := by
  rcases List.mem_map.mp h with ⟨e, he, rfl⟩
  rcases List.mem_filter.mp he with ⟨he', hne⟩
  refine ⟨?_, by simpa using hne⟩
  rcases List.mem_append.mp he' with h1 | h1
  · rcases List.mem_filter.mp h1 with ⟨h2, _⟩
    exact Or.inr (List.mem_map.mpr ⟨e, h2, rfl⟩)
  · left
    rw [List.mem_singleton.mp h1]

theorem goGet_none_of_findEnt_none {es : List (Str × Option Nat)} {k : Str}
    (h : findEnt es k = none) : goGet es k = none := by
  simp [goGet, h]

/-! ## Lemmas about the directory scan -/

theorem rootEntry_name {e : Str × Option Nat} {fi : MapFileInfo}
    (h : rootEntry e = some fi) : fi.name = e.1 := by
  unfold rootEntry at h
  split at h
  · split at h
    · cases h; rfl
    · cases h
  · cases h

theorem childEntry_name {pre : Str} {e : Str × Option Nat} {fi : MapFileInfo}
    (h : childEntry pre e = some fi) :
    goStartsWith e.1 pre = true ∧ fi.name = e.1.drop pre.length := by
  unfold childEntry at h
  by_cases hp : goStartsWith e.1 pre
  · rw [if_pos hp] at h
    split at h
    · cases h; exact ⟨hp, rfl⟩
    · cases h
  · rw [if_neg hp] at h; cases h

/-- Distinct map keys yield distinct entry names, for any scan step whose
produced name determines the key. -/
theorem nodup_names_filterMap (f : Str × Option Nat → Option MapFileInfo)
    (hinj : ∀ p q fi fi', f p = some fi → f q = some fi' →
      fi.name = fi'.name → p.1 = q.1) :
    ∀ es : List (Str × Option Nat), (es.map Prod.fst).Nodup →
      ((es.filterMap f).map MapFileInfo.name).Nodup := by
  intro es
  induction es with
  | nil => intro _; simp
  | cons a rest ih =>
    intro h
    rw [List.map_cons, List.nodup_cons] at h
    cases hf : f a with
    | none =>
      have he : (a :: rest).filterMap f = rest.filterMap f := by
        simp [List.filterMap_cons, hf]
      rw [he]
      exact ih h.2
    | some fi =>
      have he : (a :: rest).filterMap f = fi :: rest.filterMap f := by
        simp [List.filterMap_cons, hf]
      rw [he, List.map_cons, List.nodup_cons]
      refine ⟨?_, ih h.2⟩
      intro hmem
      rcases List.mem_map.mp hmem with ⟨fi', hfi', hname⟩
      rcases List.mem_filterMap.mp hfi' with ⟨q, hq, hfq⟩
      have hkey := hinj a q fi fi' hf hfq hname.symm
      exact h.1 (by rw [hkey]; exact List.mem_map.mpr ⟨q, hq, rfl⟩)

theorem nodup_names_scan1 (fsys : MapFS) (name : Str)
    (h : (fsys.entries.map Prod.fst).Nodup) :
    ((dirListing fsys name).1.map MapFileInfo.name).Nodup := by
  unfold dirListing
  by_cases hr : name = rootStr
  · rw [if_pos hr]
    refine nodup_names_filterMap rootEntry ?_ fsys.entries h
    intro p q fi fi' hp hq hname
    have h1 := rootEntry_name hp
    have h2 := rootEntry_name hq
    rw [h1, h2] at hname
    exact hname
  · rw [if_neg hr]
    refine nodup_names_filterMap (childEntry (name ++ ['/'])) ?_ fsys.entries h
    intro p q fi fi' hp hq hname
    have h1 := childEntry_name hp
    have h2 := childEntry_name hq
    have e1 := goStartsWith_eq p.1 (name ++ ['/']) h1.1
    have e2 := goStartsWith_eq q.1 (name ++ ['/']) h2.1
    rw [← e1, ← e2, ← h1.2, ← h2.2, hname]

theorem nodup_scan2 (fsys : MapFS) (name : Str) :
    (dirListing fsys name).2.Nodup := by
  unfold dirListing
  by_cases hr : name = rootStr
  · rw [if_pos hr]; exact List.nodup_dedup _
  · rw [if_neg hr]; exact List.nodup_dedup _

theorem nodup_names_fullListing (fsys : MapFS) (name : Str)
    (h : (fsys.entries.map Prod.fst).Nodup) :
    ((fullListing fsys name).map MapFileInfo.name).Nodup := by
  unfold fullListing
  rw [List.map_append]
  refine List.Nodup.append (nodup_names_scan1 fsys name h) ?_ ?_
  · rw [List.map_map,
      show (MapFileInfo.name ∘ fun n => (⟨n, .synth dirPlaceholder⟩ : MapFileInfo)) = id
        from rfl, List.map_id]
    exact (nodup_scan2 fsys name).filter _
  · intro x hx1 hx2
    rw [List.map_map,
      show (MapFileInfo.name ∘ fun n => (⟨n, .synth dirPlaceholder⟩ : MapFileInfo)) = id
        from rfl, List.map_id] at hx2
    rcases List.mem_filter.mp hx2 with ⟨_, hdec⟩
    have hnot : x ∉ (dirListing fsys name).1.map MapFileInfo.name := by
      simpa using hdec
    exact hnot hx1

theorem mem_names_fullListing {fsys : MapFS} {name : Str} {n : Str} :
    n ∈ (fullListing fsys name).map MapFileInfo.name ↔
      n ∈ (dirListing fsys name).1.map MapFileInfo.name ∨
        n ∈ (dirListing fsys name).2 := by
  unfold fullListing
  rw [List.map_append, List.mem_append, List.map_map,
    show (MapFileInfo.name ∘ fun n => (⟨n, .synth dirPlaceholder⟩ : MapFileInfo)) = id
      from rfl, List.map_id]
  constructor
  · rintro (h | h)
    · exact Or.inl h
    · exact Or.inr (List.mem_of_mem_filter h)
  · rintro (h | h)
    · exact Or.inl h
    · by_cases hl : n ∈ (dirListing fsys name).1.map MapFileInfo.name
      · exact Or.inl hl
      · exact Or.inr (List.mem_filter.mpr ⟨h, by simpa using hl⟩)

theorem mem_names_sortEntries {l : List MapFileInfo} {n : Str} :
    n ∈ (sortEntries l).map MapFileInfo.name ↔ n ∈ l.map MapFileInfo.name :=
  ((sortEntries_perm l).map MapFileInfo.name).mem_iff

/-! ## Inversion of `Open`'s directory branch -/

theorem openDir_ok_entry {fsys : MapFS} {name : Str} {file? : Option Nat}
    {p : Str} {info : MapFileInfo} {l : List MapFileInfo} {off : Nat}
    (h : openDir fsys name file? = .ok (.dir p info l off)) :
    l = sortEntries (fullListing fsys name) := by
  unfold openDir at h
  split at h
  · cases h
  · cases h; rfl

theorem openDir_root (fsys : MapFS) (file? : Option Nat) :
    openDir fsys rootStr file? =
      .ok (.dir rootStr ⟨rootStr, dirSelf file?⟩
        (sortEntries (fullListing fsys rootStr)) 0) := by
  unfold openDir
  rw [if_neg (by simp), dirElem, if_pos rfl]

theorem open_ok_dir_entry {fsys : MapFS} {name : Str}
    {p : Str} {info : MapFileInfo} {l : List MapFileInfo} {off : Nat}
    (h : MapFS.Open fsys name = .ok (.dir p info l off)) :
    l = sortEntries (fullListing fsys name) := by
  unfold MapFS.Open at h
  split at h
  · split at h
    · split at h
      · simp at h
      · exact openDir_ok_entry h
    · exact openDir_ok_entry h
  · cases h

/-! ## Write semantics -/

theorem writeData_eq (data b : List Nat) :
    writeData data b = b ++ data.drop b.length := by
  unfold writeData goCopyInto
  rcases le_or_lt b.length data.length with hle | hlt
  · rw [min_eq_right hle, if_neg (lt_irrefl _), List.take_length]
  · have hle' := le_of_lt hlt
    rw [min_eq_left hle', if_pos hlt, List.drop_length, List.append_nil,
      List.take_append_drop, List.drop_eq_nil_of_le hle', List.append_nil]

/-- C7: `OpenMapFile.Write` overwrites the pointed-to record's content in
place from offset 0 up to its current length, appends any remainder of the
buffer, returns `len(b)` with no error, changes nothing else (no other
heap record, no map entry, no allocation counter), and neither consults
nor advances the handle's read cursor. -/
theorem c7_write_overwrites_from_zero (fsys : MapFS) (h : OpenMapFile)
    (b : List Nat) :
    OpenMapFile.Write fsys h b =
      ({fsys with heap := Function.update fsys.heap h.ref ({fsys.heap h.ref with Data := b ++ (fsys.heap h.ref).Data.drop b.length})}, b.length, none) ∧
    ∀ o : Int, OpenMapFile.Write fsys {h with offset := o} b =
      OpenMapFile.Write fsys h b := by
  constructor
  · have hheap : (fun r => if r = h.ref then
        {fsys.heap h.ref with Data := writeData (fsys.heap h.ref).Data b}
      else fsys.heap r) = Function.update fsys.heap h.ref
        ({fsys.heap h.ref with
          Data := b ++ (fsys.heap h.ref).Data.drop b.length}) := by
      funext r
      by_cases hr : r = h.ref
      · subst hr; simp [Function.update, writeData_eq]
      · simp [Function.update, hr]
    unfold OpenMapFile.Write
    rw [hheap]
  · intro o; rfl

/-! ## The mutators' unguarded index of the first path byte -/

/-- C10: `Create`, `WriteFile`, `Remove`, `Rename` and the wrapper
`EasyFS.WriteFile` all evaluate `name[0]` before anything else, so each
panics on the empty path (out-of-range index, modelled as `none`); with
non-empty path arguments the normalization succeeds and the `MapFS`
mutators complete. -/
theorem c10_mutators_index_first_byte (fsys : MapFS) (g : EasyFSVal)
    (now : Nat) (data : List Nat) (perm : Nat) (name a : Str) :
    MapFS.Create fsys now [] = none ∧
    MapFS.WriteFile fsys now [] data perm = none ∧
    MapFS.Remove fsys [] = none ∧
    MapFS.Rename fsys [] name = none ∧
    MapFS.Rename fsys a [] = none ∧
    EasyFSVal.WriteFile g [] data perm = none ∧
    (name ≠ [] →
      (MapFS.Create fsys now name).isSome ∧
      (MapFS.WriteFile fsys now name data perm).isSome ∧
      (MapFS.Remove fsys name).isSome ∧
      (a ≠ [] → (MapFS.Rename fsys a name).isSome)) := by
  refine ⟨rfl, rfl, rfl, rfl, ?_, rfl, ?_⟩
  · unfold MapFS.Rename
    cases a with
    | nil => rfl
    | cons c rest => simp [stripSlash]
  · intro hne
    cases name with
    | nil => exact absurd rfl hne
    | cons c rest =>
      refine ⟨by simp [MapFS.Create, stripSlash],
        by simp [MapFS.WriteFile, stripSlash],
        by simp [MapFS.Remove, stripSlash], ?_⟩
      intro ha
      cases a with
      | nil => exact absurd rfl ha
      | cons d rest' => simp [MapFS.Rename, stripSlash]

theorem c10_witness :
    MapFS.Create emptyMapFS 0 [] = none ∧
    MapFS.WriteFile emptyMapFS 0 [] [1] 438 = none ∧
    MapFS.Remove emptyMapFS [] = none ∧
    MapFS.Rename emptyMapFS [] (strOf "x") = none ∧
    MapFS.Rename emptyMapFS (strOf "x") [] = none ∧
    EasyFSVal.WriteFile NewFS [] [1] 438 = none ∧
    (strOf "x" ≠ [] →
      (MapFS.Create emptyMapFS 0 (strOf "x")).isSome ∧
      (MapFS.WriteFile emptyMapFS 0 (strOf "x") [1] 438).isSome ∧
      (MapFS.Remove emptyMapFS (strOf "x")).isSome ∧
      (strOf "x" ≠ [] → (MapFS.Rename emptyMapFS (strOf "x") (strOf "x")).isSome)) :=
  c10_mutators_index_first_byte emptyMapFS NewFS 0 [1] 438 (strOf "x") (strOf "x")

/-! ## The singleton accessor -/

/-- C9 (code bug): `checkGlobalVar` compares an interface value of dynamic
type `EasyFS` against an empty `string`, which is `true` for every state of
the global, so `GetFS` always returns the global `EFS` unchanged — in
particular, on its first call in a fresh process it returns the zero value,
whose embedded map is `nil`; no filesystem is ever constructed or stored. -/
theorem c9_getfs_never_constructs :
    (∀ g : EasyFSVal, GetFS g = g) ∧ (GetFS ⟨none⟩).mapfs = none := by
  exact ⟨fun g => rfl, rfl⟩

/-! ## Open on malformed paths -/

/-- C8 counterexample: on the malformed path `""`, `Open` fails with the
`NotFound` kind (`fs.ErrNotExist`), not with a distinct invalid-path kind —
refuting the claim that malformed paths produce an `InvalidPath` error
distinct from `NotFound`. -/
theorem c8_counterexample :
    MapFS.Open emptyMapFS (strOf "") =
      .error ⟨strOf "open", strOf "", .notExist⟩ ∧
    ErrKind.notExist ≠ ErrKind.invalid :=
  ⟨rfl, by decide⟩

/-- C8 amended: for every syntactically malformed path (empty path, empty
segments, `.` or `..` segments, leading slash — everything `fs.ValidPath`
rejects), `Open` fails, but with the `NotFound` error kind
(`fs.ErrNotExist`); the code never uses a separate invalid-path kind in
`Open`. -/
theorem c8_invalid_path_notfound (fsys : MapFS) (name : Str)
    (h : validPath name = false) :
    MapFS.Open fsys name = .error ⟨strOf "open", name, .notExist⟩ := by
  simp [MapFS.Open, h]

theorem c8_witness :
    validPath (strOf "/a") = false ∧
    MapFS.Open emptyMapFS (strOf "/a") =
      .error ⟨strOf "open", strOf "/a", .notExist⟩ :=
  ⟨by decide, c8_invalid_path_notfound emptyMapFS (strOf "/a") (by decide)⟩

/-! ## The create/write/seek/read round trip -/

/-- C6: `Create(p)`, then `Write d` through the returned handle (which
reports `(len d, nil)`), then `Seek 0 start`, then reading to end through
the handle — a `Read` whose buffer covers the remaining content, which
from offset 0 is the whole content — returns exactly `d`. -/
theorem c6_create_write_read_roundtrip (fsys : MapFS) (now : Nat) (p : Str)
    (d : List Nat) (hp : p ≠ []) :
    ∃ fs1 h, MapFS.Create fsys now p = some (fs1, h) ∧
      (OpenMapFile.Write fs1 h d).2.1 = d.length ∧
      (OpenMapFile.Write fs1 h d).2.2 = none ∧
      ∃ h2, OpenMapFile.Seek (OpenMapFile.Write fs1 h d).1 h 0 0 = .ok (0, h2) ∧
        (OpenMapFile.Read (OpenMapFile.Write fs1 h d).1 h2 d.length).1.bytes = d := by
  cases p with
  | nil => exact absurd rfl hp
  | cons c rest =>
    refine ⟨_, _, rfl, rfl, rfl, ?_⟩
    have hd2 : ((OpenMapFile.Write
        ({entries := setKey fsys.entries (if c = '/' then rest else c :: rest)
            (some fsys.nextRef),
          heap := fun x => if x = fsys.nextRef then ⟨[], 438, now⟩ else fsys.heap x,
          nextRef := fsys.nextRef + 1} : MapFS)
        ⟨(if c = '/' then rest else c :: rest),
          (if c = '/' then rest else c :: rest), fsys.nextRef, 0⟩ d).1.heap
        fsys.nextRef).Data = d := by
      simp [OpenMapFile.Write, writeData_eq]
    refine ⟨⟨(if c = '/' then rest else c :: rest),
      (if c = '/' then rest else c :: rest), fsys.nextRef, 0⟩, ?_, ?_⟩
    · have hlen : ¬((0 : Int) < 0 ∨ (0 : Int) > (d.length : Int)) := by omega
      simp [OpenMapFile.Seek, seekTarget, hd2, hlen]
    · cases hd : d with
      | nil =>
        rw [hd] at hd2
        simp [OpenMapFile.Read, hd2]
      | cons x xs =>
        rw [hd] at hd2
        have hge : ¬((xs.length : Int) + 1 ≤ 0) := by omega
        simp [OpenMapFile.Read, readCount, hd2, hge]

theorem c6_witness :
    strOf "f.txt" ≠ [] ∧
    (∃ fs1 h, MapFS.Create emptyMapFS 0 (strOf "f.txt") = some (fs1, h) ∧
      (OpenMapFile.Write fs1 h [5, 6]).2.1 = [5, 6].length ∧
      (OpenMapFile.Write fs1 h [5, 6]).2.2 = none ∧
      ∃ h2, OpenMapFile.Seek (OpenMapFile.Write fs1 h [5, 6]).1 h 0 0 = .ok (0, h2) ∧
        (OpenMapFile.Read (OpenMapFile.Write fs1 h [5, 6]).1 h2
          [5, 6].length).1.bytes = [5, 6]) :=
  ⟨by decide,
   c6_create_write_read_roundtrip emptyMapFS 0 (strOf "f.txt") [5, 6] (by decide)⟩

/-! ## Helper characterizations of `Open` -/

theorem open_file_of {fsys : MapFS} {name : Str} {r : Nat}
    (hv : validPath name = true) (hg : goGet fsys.entries name = some r)
    (hm : (fsys.heap r).Mode &&& ModeDir = 0) :
    MapFS.Open fsys name = .ok (.file ⟨name, lastSeg name, r, 0⟩) := by
  unfold MapFS.Open
  rw [hv, if_pos rfl, hg]
  show (if (fsys.heap r).Mode &&& ModeDir = 0 then
      Except.ok (Handle.file ⟨name, lastSeg name, r, 0⟩)
    else openDir fsys name (some r)) =
    Except.ok (Handle.file ⟨name, lastSeg name, r, 0⟩)
  rw [if_pos hm]

theorem open_eq_openDir_none {fsys : MapFS} {name : Str}
    (hv : validPath name = true) (hg : goGet fsys.entries name = none) :
    MapFS.Open fsys name = openDir fsys name none := by
  unfold MapFS.Open
  rw [hv, if_pos rfl, hg]

theorem open_eq_openDir_some {fsys : MapFS} {name : Str} {r : Nat}
    (hv : validPath name = true) (hg : goGet fsys.entries name = some r)
    (hm : ¬((fsys.heap r).Mode &&& ModeDir = 0)) :
    MapFS.Open fsys name = openDir fsys name (some r) := by
  unfold MapFS.Open
  rw [hv, if_pos rfl, hg]
  show (if (fsys.heap r).Mode &&& ModeDir = 0 then
      Except.ok (Handle.file ⟨name, lastSeg name, r, 0⟩)
    else openDir fsys name (some r)) = openDir fsys name (some r)
  rw [if_neg hm]

theorem readFile_of_file {fsys : MapFS} {name : Str} {f : OpenMapFile}
    (hopen : MapFS.Open fsys name = .ok (.file f)) :
    MapFS.ReadFile fsys name = .ok (fsys.heap f.ref).Data := by
  unfold MapFS.ReadFile
  rw [hopen]

/-- `Open` fails `NotFound` on a valid non-root path with no record and no
key strictly below it. -/
theorem open_notfound_of {fsys : MapFS} {p : Str} (hvalid : validPath p = true)
    (hroot : p ≠ rootStr) (hget : goGet fsys.entries p = none)
    (hsw : ∀ e ∈ fsys.entries, goStartsWith e.1 (p ++ ['/']) = false) :
    MapFS.Open fsys p = .error ⟨strOf "open", p, .notExist⟩ := by
  have hlist : fsys.entries.filterMap (childEntry (p ++ ['/'])) = [] := by
    rw [List.filterMap_eq_nil_iff]
    intro e he
    unfold childEntry
    rw [hsw e he]
    rfl
  have hneed : fsys.entries.filterMap (childNeed (p ++ ['/'])) = [] := by
    rw [List.filterMap_eq_nil_iff]
    intro e he
    unfold childNeed
    rw [hsw e he]
    rfl
  have hdl : dirListing fsys p = ([], []) := by
    unfold dirListing
    rw [if_neg hroot, hlist, hneed]
    rfl
  rw [open_eq_openDir_none hvalid hget]
  unfold openDir
  rw [hdl, if_pos ⟨hroot, rfl, rfl, rfl⟩]

/-- The directory branch always succeeds when an explicit record exists. -/
theorem openDir_some_ok (fsys : MapFS) (name : Str) (r : Nat) :
    openDir fsys name (some r) =
      .ok (.dir name ⟨dirElem name, dirSelf (some r)⟩
        (sortEntries (fullListing fsys name)) 0) := by
  unfold openDir
  rw [if_neg (by rintro ⟨-, h, -, -⟩; cases h)]

/-! ## Claim C2 -/

/-- C2: a valid non-root path with neither an explicit record (`fsys[p]`
is `nil`) nor any descendant key fails with `NotFound`; the root always
succeeds with a directory handle (here: under the same no-record domain,
with a synthesized directory record), even on an empty store. -/
theorem c2_notfound_and_root_succeeds :
    (∀ (fsys : MapFS) (p : Str), validPath p = true → p ≠ rootStr →
      goGet fsys.entries p = none →
      fsys.entries.all (fun e => !(goStartsWith e.1 (p ++ ['/']))) = true →
      MapFS.Open fsys p = .error ⟨strOf "open", p, .notExist⟩) ∧
    (∀ fsys : MapFS, goGet fsys.entries rootStr = none →
      MapFS.Open fsys rootStr =
        .ok (.dir rootStr ⟨rootStr, .synth dirPlaceholder⟩
          (sortEntries (fullListing fsys rootStr)) 0)) := by
  constructor
  · intro fsys p hvalid hroot hget hdesc
    refine open_notfound_of hvalid hroot hget ?_
    intro e he
    simpa using List.all_eq_true.mp hdesc e he
  · intro fsys hget
    rw [open_eq_openDir_none (by decide) hget]
    exact openDir_root fsys none

def c2wfs : MapFS := ⟨[(strOf "zz/x", some 0)], fun _ => ⟨[], 0, 0⟩, 1⟩

theorem c2_witness :
    MapFS.Open c2wfs (strOf "a") =
      .error ⟨strOf "open", strOf "a", .notExist⟩ ∧
    MapFS.Open c2wfs rootStr =
      .ok (.dir rootStr ⟨rootStr, .synth dirPlaceholder⟩
        (sortEntries (fullListing c2wfs rootStr)) 0) :=
  ⟨c2_notfound_and_root_succeeds.1 c2wfs (strOf "a") (by decide) (by decide)
      (by decide) (by decide),
   c2_notfound_and_root_succeeds.2 c2wfs (by decide)⟩

/-! ## Claim C4 -/

/-- C4: `Copy(dst, src)` fails with `NotFound` exactly when `src` has no
explicit record; on success `dst` references the same record object as
`src`, so writing through a handle opened on `dst` is observed by
`ReadFile` on `src`. -/
theorem c4_copy_aliases :
    (∀ (fsys : MapFS) (dst src : Str),
      MapFS.Copy fsys dst src = .error ⟨strOf "copy", src, .notExist⟩ ↔
        goGet fsys.entries src = none) ∧
    (∀ (fsys : MapFS) (dst src : Str) (r : Nat) (b : List Nat),
      goGet fsys.entries src = some r →
      validPath dst = true → validPath src = true →
      (fsys.heap r).Mode &&& ModeDir = 0 →
      ∃ fs1, MapFS.Copy fsys dst src = .ok fs1 ∧
        goGet fs1.entries dst = some r ∧
        goGet fs1.entries src = some r ∧
        MapFS.Open fs1 dst = .ok (.file ⟨dst, lastSeg dst, r, 0⟩) ∧
        MapFS.ReadFile (OpenMapFile.Write fs1 ⟨dst, lastSeg dst, r, 0⟩ b).1 src =
          .ok (b ++ (fsys.heap r).Data.drop b.length)) := by
  constructor
  · intro fsys dst src
    unfold MapFS.Copy
    cases hget : goGet fsys.entries src with
    | none => simp
    | some r => simp
  · intro fsys dst src r b hsrc hvd hvs hmode
    refine ⟨{fsys with entries := setKey fsys.entries dst (some r)}, ?_, ?_, ?_, ?_, ?_⟩
    · unfold MapFS.Copy
      rw [hsrc]
    · exact goGet_setKey_self fsys.entries dst (some r)
    · by_cases hds : src = dst
      · rw [hds]; exact goGet_setKey_self fsys.entries dst (some r)
      · rw [show ({fsys with entries := setKey fsys.entries dst (some r)} :
            MapFS).entries = setKey fsys.entries dst (some r) from rfl,
          goGet_setKey_ne fsys.entries dst src (some r) hds]
        exact hsrc
    · exact open_file_of hvd (goGet_setKey_self fsys.entries dst (some r)) hmode
    · have hg2 : goGet (OpenMapFile.Write
          ({fsys with entries := setKey fsys.entries dst (some r)} : MapFS)
          ⟨dst, lastSeg dst, r, 0⟩ b).1.entries src = some r := by
        show goGet (setKey fsys.entries dst (some r)) src = some r
        by_cases hds : src = dst
        · rw [hds]; exact goGet_setKey_self fsys.entries dst (some r)
        · rw [goGet_setKey_ne fsys.entries dst src (some r) hds]
          exact hsrc
      have hheap : (OpenMapFile.Write
          ({fsys with entries := setKey fsys.entries dst (some r)} : MapFS)
          ⟨dst, lastSeg dst, r, 0⟩ b).1.heap r =
          {fsys.heap r with Data := writeData (fsys.heap r).Data b} := by
        show (if r = r then _ else _) = _
        rw [if_pos rfl]
      have hmode2 : ((OpenMapFile.Write
          ({fsys with entries := setKey fsys.entries dst (some r)} : MapFS)
          ⟨dst, lastSeg dst, r, 0⟩ b).1.heap r).Mode &&& ModeDir = 0 := by
        rw [hheap]
        exact hmode
      rw [readFile_of_file (open_file_of hvs hg2 hmode2), hheap]
      rw [show ({fsys.heap r with Data := writeData (fsys.heap r).Data b} :
        MapFile).Data = writeData (fsys.heap r).Data b from rfl, writeData_eq]

def c4wfs : MapFS := ⟨[(strOf "a.txt", some 0)], fun _ => ⟨[104, 105], 438, 0⟩, 1⟩

theorem c4_witness :
    goGet c4wfs.entries (strOf "a.txt") = some 0 ∧
    (MapFS.Copy c4wfs (strOf "b.txt") (strOf "nope") =
        .error ⟨strOf "copy", strOf "nope", .notExist⟩ ↔
      goGet c4wfs.entries (strOf "nope") = none) ∧
    (∃ fs1, MapFS.Copy c4wfs (strOf "b.txt") (strOf "a.txt") = .ok fs1 ∧
      goGet fs1.entries (strOf "b.txt") = some 0 ∧
      goGet fs1.entries (strOf "a.txt") = some 0 ∧
      MapFS.Open fs1 (strOf "b.txt") =
        .ok (.file ⟨strOf "b.txt", lastSeg (strOf "b.txt"), 0, 0⟩) ∧
      MapFS.ReadFile (OpenMapFile.Write fs1
          ⟨strOf "b.txt", lastSeg (strOf "b.txt"), 0, 0⟩ [33]).1 (strOf "a.txt") =
        .ok ([33] ++ (c4wfs.heap 0).Data.drop [33].length)) :=
  ⟨by decide,
   c4_copy_aliases.1 c4wfs (strOf "b.txt") (strOf "nope"),
   c4_copy_aliases.2 c4wfs (strOf "b.txt") (strOf "a.txt") 0 [33]
     (by decide) (by decide) (by decide) (by decide)⟩

/-! ## Claim C3 -/

def isOkDir : Except PathErr Handle → Bool
  | .ok (.dir _ _ _ _) => true
  | _ => false

def c3cxFS : MapFS :=
  ⟨[(strOf "d", some 0), (strOf "d/x", some 1)], fun _ => ⟨[], 0, 0⟩, 2⟩

/-- C3 counterexample: in the store with records at `"d"` and `"d/x"`, the
path `a = "d"` holds an explicit record, yet after `Rename("d", "e")` the
call `Open("d")` does not fail `NotFound` — it succeeds with a directory
handle synthesized from the surviving descendant `"d/x"`. -/
theorem c3_counterexample :
    goGet c3cxFS.entries (strOf "d") = some 0 ∧
    (MapFS.Rename c3cxFS (strOf "d") (strOf "e")).map
      (fun fs1 => isOkDir (MapFS.Open fs1 (strOf "d"))) = some true :=
  ⟨by decide, rfl⟩

/-- C3 (amended): for valid paths `a ≠ b` with `a` not the root, `b` not a
strict descendant of `a`, an explicit record at `a`, and no key in the
store strictly below `a`, `Rename(a, b)` followed by `Open(a)` fails with
`NotFound`, and `Open(b)` returns a handle on the record `a` previously
held. -/
theorem c3_rename_then_open (fsys : MapFS) (a b : Str) (r : Nat)
    (hva : validPath a = true) (hvb : validPath b = true)
    (hab : a ≠ b) (haroot : a ≠ rootStr)
    (hbdesc : goStartsWith b (a ++ ['/']) = false)
    (hget : goGet fsys.entries a = some r)
    (hdesc : fsys.entries.all (fun e => !(goStartsWith e.1 (a ++ ['/']))) = true) :
    ∃ fs1, MapFS.Rename fsys a b = some fs1 ∧
      MapFS.Open fs1 a = .error ⟨strOf "open", a, .notExist⟩ ∧
      ∃ h, MapFS.Open fs1 b = .ok h ∧ Handle.recRef h = .stored r := by
  have hsa := stripSlash_of_valid hva
  have hsb := stripSlash_of_valid hvb
  refine ⟨{fsys with
    entries := delKey (setKey fsys.entries b (goGet fsys.entries a)) a}, ?_, ?_, ?_⟩
  · unfold MapFS.Rename
    rw [hsa, hsb]
  · refine open_notfound_of hva haroot
      (goGet_delKey_self (setKey fsys.entries b (goGet fsys.entries a)) a) ?_
    intro e he
    have hk := mem_keys_rename (List.mem_map.mpr ⟨e, he, rfl⟩)
    rcases hk.1 with hb | hold
    · rw [hb]; exact hbdesc
    · rcases List.mem_map.mp hold with ⟨e', he', hfst⟩
      rw [← hfst]
      simpa using List.all_eq_true.mp hdesc e' he'
  · have hgb : goGet (delKey (setKey fsys.entries b (goGet fsys.entries a)) a) b
        = some r := by
      rw [goGet_delKey_ne _ _ _ (Ne.symm hab), hget,
        goGet_setKey_self fsys.entries b (some r)]
    by_cases hm : (fsys.heap r).Mode &&& ModeDir = 0
    · exact ⟨.file ⟨b, lastSeg b, r, 0⟩,
        @open_file_of {fsys with
          entries := delKey (setKey fsys.entries b (goGet fsys.entries a)) a}
          b r hvb hgb hm, rfl⟩
    · refine ⟨.dir b ⟨dirElem b, dirSelf (some r)⟩
        (sortEntries (fullListing {fsys with
          entries := delKey (setKey fsys.entries b (goGet fsys.entries a)) a} b)) 0,
        ?_, rfl⟩
      exact (@open_eq_openDir_some {fsys with
          entries := delKey (setKey fsys.entries b (goGet fsys.entries a)) a}
          b r hvb hgb hm).trans (openDir_some_ok _ b r)

def c3wfs : MapFS := ⟨[(strOf "old.txt", some 0)], fun _ => ⟨[104], 438, 0⟩, 1⟩

theorem c3_witness :
    ∃ fs1, MapFS.Rename c3wfs (strOf "old.txt") (strOf "new.txt") = some fs1 ∧
      MapFS.Open fs1 (strOf "old.txt") =
        .error ⟨strOf "open", strOf "old.txt", .notExist⟩ ∧
      ∃ h, MapFS.Open fs1 (strOf "new.txt") = .ok h ∧ Handle.recRef h = .stored 0 :=
  c3_rename_then_open c3wfs (strOf "old.txt") (strOf "new.txt") 0
    (by decide) (by decide) (by decide) (by decide) (by decide) (by decide)
    (by decide)

/-! ## Claim C1 -/

/-- C1: a valid path `p` with no explicit record (`fsys[p]` is `nil`) but
at least one descendant key `p/x` opens as a directory whose listing
contains an entry named after the first segment of `x`; for the root, any
key containing a separator contributes its first segment. -/
theorem c1_descendants_synthesize_directory :
    (∀ (fsys : MapFS) (p x : Str), validPath p = true → p ≠ rootStr →
      goGet fsys.entries p = none →
      (p ++ '/' :: x) ∈ fsys.entries.map Prod.fst →
      ∃ info l, MapFS.Open fsys p = .ok (.dir p info l 0) ∧
        firstSeg x ∈ l.map MapFileInfo.name) ∧
    (∀ (fsys : MapFS) (k : Str) (i : Nat), goGet fsys.entries rootStr = none →
      k ∈ fsys.entries.map Prod.fst → idxSlash k = some i →
      ∃ info l, MapFS.Open fsys rootStr = .ok (.dir rootStr info l 0) ∧
        k.take i ∈ l.map MapFileInfo.name) := by
  constructor
  · intro fsys p x hvalid hroot hget hkmem
    rcases List.mem_map.mp hkmem with ⟨⟨k0, v⟩, hent, hk0⟩
    have hk0' : k0 = (p ++ ['/']) ++ x := by
      have : k0 = p ++ '/' :: x := hk0
      rw [this]
      simp
    have hsw : goStartsWith k0 (p ++ ['/']) = true := by
      rw [hk0']; exact goStartsWith_append _ _
    have hdrop : k0.drop (p ++ ['/']).length = x := by
      rw [hk0']; exact List.drop_left _ _
    have hdl : dirListing fsys p =
        (fsys.entries.filterMap (childEntry (p ++ ['/'])),
         (fsys.entries.filterMap (childNeed (p ++ ['/']))).dedup) := by
      unfold dirListing
      rw [if_neg hroot]
    have hor : firstSeg x ∈ (dirListing fsys p).1.map MapFileInfo.name ∨
        firstSeg x ∈ (dirListing fsys p).2 := by
      rw [hdl]
      cases hx : idxSlash x with
      | none =>
        left
        simp only [firstSeg, hx]
        cases v with
        | none =>
          have hce : childEntry (p ++ ['/']) (k0, none) =
              some ⟨x, GoPtr.nil⟩ := by
            simp only [childEntry, hsw, hdrop, hx, if_true]
          exact List.mem_map.mpr ⟨⟨x, GoPtr.nil⟩,
            List.mem_filterMap.mpr ⟨(k0, none), hent, hce⟩, rfl⟩
        | some r =>
          have hce : childEntry (p ++ ['/']) (k0, some r) =
              some ⟨x, GoPtr.stored r⟩ := by
            simp only [childEntry, hsw, hdrop, hx, if_true]
          exact List.mem_map.mpr ⟨⟨x, GoPtr.stored r⟩,
            List.mem_filterMap.mpr ⟨(k0, some r), hent, hce⟩, rfl⟩
      | some i =>
        right
        simp only [firstSeg, hx]
        rw [List.mem_dedup]
        have hcn : childNeed (p ++ ['/']) (k0, v) = some (x.take i) := by
          simp only [childNeed, hsw, hdrop, hx, if_true]
        exact List.mem_filterMap.mpr ⟨(k0, v), hent, hcn⟩
    have hcond : ¬(p ≠ rootStr ∧ (none : Option Nat) = none ∧
        (dirListing fsys p).1 = [] ∧ (dirListing fsys p).2 = []) := by
      rintro ⟨-, -, h1, h2⟩
      rcases hor with hmem | hmem
      · rw [h1] at hmem; simp at hmem
      · rw [h2] at hmem; simp at hmem
    refine ⟨⟨dirElem p, dirSelf none⟩, sortEntries (fullListing fsys p), ?_, ?_⟩
    · rw [open_eq_openDir_none hvalid hget]
      unfold openDir
      rw [if_neg hcond]
    · exact mem_names_sortEntries.mpr (mem_names_fullListing.mpr hor)
  · intro fsys k i hget hkmem hidx
    rcases List.mem_map.mp hkmem with ⟨⟨k0, v⟩, hent, hk0⟩
    have hor : k.take i ∈ (dirListing fsys rootStr).2 := by
      have hdl : dirListing fsys rootStr =
          (fsys.entries.filterMap rootEntry,
           (fsys.entries.filterMap rootNeed).dedup) := by
        unfold dirListing
        rw [if_pos rfl]
      rw [hdl, List.mem_dedup]
      refine List.mem_filterMap.mpr ⟨(k0, v), hent, ?_⟩
      show rootNeed (k0, v) = some (k.take i)
      unfold rootNeed
      rw [show ((k0, v).1 : Str) = k0 from rfl, show (k0 : Str) = k from hk0, hidx]
      rfl
    refine ⟨⟨rootStr, dirSelf none⟩, sortEntries (fullListing fsys rootStr), ?_, ?_⟩
    · rw [open_eq_openDir_none (by decide) hget]
      exact openDir_root fsys none
    · exact mem_names_sortEntries.mpr (mem_names_fullListing.mpr (Or.inr hor))

def c1wfs : MapFS := ⟨[(strOf "a/b", some 0)], fun _ => ⟨[], 438, 0⟩, 1⟩

theorem c1_witness :
    (∃ info l, MapFS.Open c1wfs (strOf "a") = .ok (.dir (strOf "a") info l 0) ∧
      firstSeg (strOf "b") ∈ l.map MapFileInfo.name) ∧
    (∃ info l, MapFS.Open c1wfs rootStr = .ok (.dir rootStr info l 0) ∧
      (strOf "a/b").take 1 ∈ l.map MapFileInfo.name) :=
  ⟨c1_descendants_synthesize_directory.1 c1wfs (strOf "a") (strOf "b")
     (by decide) (by decide) (by decide) (by decide),
   c1_descendants_synthesize_directory.2 c1wfs (strOf "a/b") 1
     (by decide) (by decide) (by decide)⟩

/-! ## Claim C5 -/

/-- C5: every directory listing `Open` returns is sorted by name in
byte-wise ascending order with no duplicate names (explicit records have
already absorbed the synthesized placeholders of the same name).  The
key-uniqueness hypothesis is the Go map invariant. -/
theorem c5_listing_sorted_nodup (fsys : MapFS) (name p : Str)
    (info : MapFileInfo) (l : List MapFileInfo) (off : Nat)
    (hkeys : (fsys.entries.map Prod.fst).Nodup)
    (h : MapFS.Open fsys name = .ok (.dir p info l off)) :
    l.Pairwise (fun a b => lexLt a.name b.name = true) ∧
    (l.map MapFileInfo.name).Nodup := by
  have hl := open_ok_dir_entry h
  subst hl
  have hnodup : ((sortEntries (fullListing fsys name)).map MapFileInfo.name).Nodup :=
    ((sortEntries_perm _).map MapFileInfo.name).nodup_iff.mpr
      (nodup_names_fullListing fsys name hkeys)
  exact ⟨pairwise_lt_of_le_nodup _ (pairwise_sortEntries _) hnodup, hnodup⟩

def c5wfs : MapFS :=
  ⟨[(strOf "c", some 2), (strOf "a", some 0), (strOf "a/b", some 1)],
   fun _ => ⟨[], 0, 0⟩, 3⟩

theorem c5_witness :
    (c5wfs.entries.map Prod.fst).Nodup ∧
    MapFS.Open c5wfs rootStr = .ok (.dir rootStr ⟨rootStr, .synth dirPlaceholder⟩
      [⟨strOf "a", .stored 0⟩, ⟨strOf "c", .stored 2⟩] 0) ∧
    (([⟨strOf "a", .stored 0⟩, ⟨strOf "c", .stored 2⟩] :
        List MapFileInfo).Pairwise
      (fun a b => lexLt a.name b.name = true) ∧
     (([⟨strOf "a", .stored 0⟩, ⟨strOf "c", .stored 2⟩] :
        List MapFileInfo).map MapFileInfo.name).Nodup) :=
  ⟨by decide, rfl,
   c5_listing_sorted_nodup c5wfs rootStr rootStr ⟨rootStr, .synth dirPlaceholder⟩
     [⟨strOf "a", .stored 0⟩, ⟨strOf "c", .stored 2⟩] 0 (by decide) rfl⟩
